import Mathlib

/-!
Verification of the text-overlay layout engine of `src/text_overlay.py`
(`TextOverlay`: font resolution, pixel-width text wrapping, block sizing,
anchor positioning, background compositing and text drawing).

Python strings are modelled as `List Char`, Python ints as `Int` (with
floor division `Int.fdiv` for `//` and truncation `pyInt` for `int()`),
and floats as exact rationals (the styling floats are only multiplied,
compared and truncated, which the code does not rely on IEEE rounding for).
Pixel channel values are modelled as exact rationals; the 8-bit rounding of
Pillow's C compositor is abstracted to the exact algebra it approximates.
The ambient library behaviour (which font files exist and load, what the
glyph rasteriser measures and draws, and whether an out-of-range fill
colour is accepted) is an explicit `Env` parameter, so theorems quantify
over every environment.
-/

namespace VerseCanvas

/-- A Python `str`, modelled as its list of characters. -/
abbrev PyStr := List Char

/-- Python's notion of a whitespace character (`str.isspace`, and the
character class used by `str.split()`, `str.strip()` and the `\s` of the
`textwrap` separator pattern): the ASCII whitespace and field separators
plus the Unicode space separators. -/
def isUniSpace (c : Char) : Bool :=
  c == ' ' || c == '\t' || c == '\n' || c == '\u000B' || c == '\u000C' ||
  c == '\r' || c == '\u001C' || c == '\u001D' || c == '\u001E' ||
  c == '\u001F' || c == '\u0085' || c == '\u00A0' || c == '\u1680' ||
  (('\u2000' ≤ c) && (c ≤ '\u200A')) ||
  c == '\u2028' || c == '\u2029' || c == '\u202F' || c == '\u205F' ||
  c == '\u3000'

/-- The six characters replaced by a space by
`textwrap.TextWrapper.replace_whitespace` (its `unicode_whitespace_trans`
table covers exactly `'\t\n\x0b\x0c\r '`). -/
def isMungeSpace (c : Char) : Bool :=
  c == '\t' || c == '\n' || c == '\u000B' || c == '\u000C' || c == '\r' ||
  c == ' '

/-- Model of `s.strip() == ''` for a Python string: every character is whitespace
(true for the empty string). -/
def stripEmpty (s : PyStr) : Bool := s.all isUniSpace

/-- Model of `s` contains no whitespace character at all. -/
def noWs (s : PyStr) : Bool := s.all (fun c => !(isUniSpace c))

/-- Erase every whitespace character of `s` (used to state that wrapping
preserves the non-whitespace text). -/
def removeWs (s : PyStr) : PyStr := s.filter (fun c => !(isUniSpace c))

/-- Concatenation of a list of strings (`''.join(...)`). -/
def cat (ls : List PyStr) : PyStr := ls.flatten

/-- Model of `text.split('\n')`: split on every newline, keeping empty pieces;
the empty string yields one empty piece. -/
def splitNl : PyStr → List PyStr
  | [] => [[]]
  | c :: rest =>
    if c = '\n' then [] :: splitNl rest
    else
      match splitNl rest with
      | [] => [[c]]
      | p :: ps => (c :: p) :: ps

/-- Split a string into its maximal runs of whitespace and of
non-whitespace characters, in order.  This is the chunking performed by
`textwrap.TextWrapper._split`; the hyphen / em-dash sub-splitting of its
word-separator pattern (`break_on_hyphens`) is not modelled — no claim
depends on where a hyphenated word may additionally be broken. -/
def splitChunks : PyStr → List PyStr
  | [] => []
  | c :: rest =>
    match splitChunks rest with
    | [] => [[c]]
    | [] :: rs => [c] :: [] :: rs
    | (d :: ds) :: rs =>
      if isUniSpace c = isUniSpace d then (c :: d :: ds) :: rs
      else [c] :: (d :: ds) :: rs

/-- Model of `s.split()` with no argument: the maximal non-whitespace runs. -/
def pyWords (s : PyStr) : List PyStr :=
  (splitChunks s).filter (fun w => !(stripEmpty w))

/-- Model of `str.expandtabs(8)` (`TextWrapper.expand_tabs`): replace each tab by
spaces up to the next multiple-of-8 column; newline and carriage return
reset the column. -/
def expandTabsGo (col : Nat) : PyStr → PyStr
  | [] => []
  | c :: rest =>
    if c = '\t' then
      let n := 8 - col % 8
      List.replicate n ' ' ++ expandTabsGo (col + n) rest
    else if c = '\n' ∨ c = '\r' then c :: expandTabsGo 0 rest
    else c :: expandTabsGo (col + 1) rest

/-- Model of `TextWrapper._munge_whitespace`: expand tabs, then turn each of the six
ASCII whitespace characters into a plain space. -/
def munge (s : PyStr) : PyStr :=
  (expandTabsGo 0 s).map (fun c => if isMungeSpace c then ' ' else c)

/-- Sum of the lengths of a list of strings. -/
def sumLen (cs : List PyStr) : Nat := (cs.map List.length).sum

/-- Termination measure for the chunk-consuming loop of
`TextWrapper._wrap_chunks`: total characters plus number of chunks. -/
def muChunks (cs : List PyStr) : Nat := sumLen cs + cs.length

/-- The inner `while` of `TextWrapper._wrap_chunks`: pop chunks into the
current line while the running character count stays within `width`.
Returns the popped prefix and the remaining chunks. -/
def fill (width : Nat) (curLen : Nat) : List PyStr → List PyStr × List PyStr
  | [] => ([], [])
  | c :: rest =>
    if curLen + c.length ≤ width then
      let pr := fill width (curLen + c.length) rest
      (c :: pr.1, pr.2)
    else ([], c :: rest)

/-- Model of `chunk.rfind('-', 0, bound)`: index of the last hyphen strictly before
`bound`, if any. -/
def rfindHy (s : PyStr) (bound : Nat) : Option Nat :=
  ((List.range (s.take bound).length).filter
    (fun i => (s.take bound).getD i ' ' = '-')).getLast?

/-- Model of `TextWrapper._handle_long_word` with `break_long_words=True` and
`break_on_hyphens=True` (the defaults used by the source): chop the head
chunk — preferably after an interior hyphen — to what still fits on the
current line, pushing the cut piece onto the line. -/
def hlw (curLine : List PyStr) (curLen : Nat) : List PyStr → List PyStr × List PyStr
  | [] => (curLine, [])
  | chunk :: tail =>
    let spaceLeft := 50 - curLen
    let e :=
      if spaceLeft < chunk.length then
        match rfindHy chunk spaceLeft with
        | some i =>
          if 0 < i ∧ (chunk.take i).any (fun c => !(c = '-')) then i + 1 else spaceLeft
        | none => spaceLeft
      else spaceLeft
    (curLine ++ [chunk.take e], chunk.drop e :: tail)

/-- The opening of each `_wrap_chunks` iteration: once at least one line
has been emitted, a leading all-whitespace chunk is deleted
(`drop_whitespace` at the start of a continuation line). -/
def dropLead (hasLines : Bool) : List PyStr → List PyStr
  | [] => []
  | c :: rest => if hasLines ∧ stripEmpty c then rest else c :: rest

/-- After the fill loop: if the next chunk is longer than the whole line
width (50), break it with `_handle_long_word`. -/
def longWordStep (pr : List PyStr × List PyStr) : List PyStr × List PyStr :=
  match pr.2 with
  | [] => (pr.1, [])
  | d :: tail =>
    if 50 < d.length then hlw pr.1 (sumLen pr.1) (d :: tail) else (pr.1, d :: tail)

/-- The closing `drop_whitespace` step: an all-whitespace last piece of
the current line is dropped. -/
def dropTrailingWs (cl : List PyStr) : List PyStr :=
  match cl.getLast? with
  | some last => if stripEmpty last then cl.dropLast else cl
  | none => cl

/-- One iteration of the outer `while chunks` loop of
`TextWrapper._wrap_chunks` (`width=50`, `drop_whitespace=True`, no
indents): optionally drop a leading whitespace chunk, fill the current
line, break a too-long head chunk, drop a trailing whitespace piece, and
emit the joined line if anything is left.  Returns the emitted line (if
any) and the remaining chunks. -/
def wrapIter (hasLines : Bool) (chunks : List PyStr) : Option PyStr × List PyStr :=
  let st := longWordStep (fill 50 0 (dropLead hasLines chunks))
  let cl := dropTrailingWs st.1
  (if cl.isEmpty then none else some (cat cl), st.2)

/-- The outer loop of `TextWrapper._wrap_chunks`, fuelled: `fuel` bounds
the number of iterations (each iteration strictly shrinks `muChunks`, so
`muChunks chunks + 1` fuel computes the exact Python result). -/
def wrapChunksGo : Nat → Bool → List PyStr → List PyStr
  | 0, _, _ => []
  | _ + 1, _, [] => []
  | fuel + 1, hasLines, c :: rest =>
    match wrapIter hasLines (c :: rest) with
    | (some line, rem) => line :: wrapChunksGo fuel true rem
    | (none, rem) => wrapChunksGo fuel hasLines rem

/-- Model of `textwrap.TextWrapper(width=50).wrap(paragraph)`: munge whitespace,
chunk, and run the fill loop. -/
def textwrapWrap (p : PyStr) : List PyStr :=
  let chunks := splitChunks (munge p)
  wrapChunksGo (muChunks chunks + 1) false chunks

/-- The greedy word-accumulation re-split of `TextOverlay._wrap_text`
(lines 175–186): walk the words, extending the current line while its
measured width stays within `maxWidth`, flushing it when the next word
would overflow.  `w` is the pixel measure `_get_text_width(·, font)`. -/
def greedyGo (w : PyStr → Nat) (maxWidth : Int) (cur : PyStr) : List PyStr → List PyStr
  | [] => if cur.isEmpty then [] else [cur]
  | word :: rest =>
    let test := if cur.isEmpty then word else cur ++ ' ' :: word
    if (w test : Int) ≤ maxWidth then greedyGo w maxWidth test rest
    else if cur.isEmpty then greedyGo w maxWidth word rest
    else cur :: greedyGo w maxWidth word rest

/-- The per-line pixel refinement of `TextOverlay._wrap_text` (lines
170–186): keep a coarse line that already measures within `maxWidth`,
otherwise re-split it greedily word by word. -/
def refineLine (w : PyStr → Nat) (maxWidth : Int) (line : PyStr) : List PyStr :=
  if (w line : Int) ≤ maxWidth then [line]
  else greedyGo w maxWidth [] (pyWords line)

/-- The body of `TextOverlay._wrap_text`'s paragraph loop: an all-whitespace
paragraph becomes one blank line; otherwise the paragraph is coarsely
wrapped at 50 characters and each coarse line refined by pixel width. -/
def wrapPara (w : PyStr → Nat) (maxWidth : Int) (p : PyStr) : List PyStr :=
  if stripEmpty p then [[]]
  else (textwrapWrap p).flatMap (refineLine w maxWidth)

/-- Model of `TextOverlay._wrap_text(text, font, max_width)`: split on newlines and
wrap each paragraph, concatenating the resulting display lines in order. -/
def wrapText (w : PyStr → Nat) (maxWidth : Int) (text : PyStr) : List PyStr :=
  (splitNl text).flatMap (wrapPara w maxWidth)

/-- Python `int(x)` on a float / exact number: truncation toward zero
(`Int.tdiv` of the reduced numerator by the denominator). -/
def pyInt (q : ℚ) : Int := Int.tdiv q.num q.den

/-- A loaded font object: either a scalable `ImageFont.truetype(path, size)`
handle or the fixed-size bitmap font `ImageFont.load_default()` (whose size
argument is not honoured). -/
inductive Font
  | truetype (path : String) (size : Int)
  | builtin
deriving DecidableEq

/-- A Python exception value (only its message is modelled). -/
structure PyErr where
  msg : String
deriving DecidableEq

/-- A pixel: red, green, blue and alpha channel values.  Channels are
exact rationals on the 0–255 scale; images in `RGB` mode are normalised to
carry alpha 255. -/
structure Pixel where
  r : ℚ
  g : ℚ
  b : ℚ
  a : ℚ
deriving DecidableEq

/-- The two pixel modes the overlay pipeline distinguishes. -/
inductive Mode
  | rgb
  | rgba
deriving DecidableEq

/-- An in-memory raster image: mode, dimensions, and the pixel at each
coordinate (the function is total; only coordinates below the dimensions
are meaningful). -/
structure Image where
  mode : Mode
  width : Nat
  height : Nat
  px : Nat → Nat → Pixel

/-- An RGB colour triple as passed by the caller (values are taken as
given, range-checking is the library's affair — see `Env.inkCheck`). -/
structure RGBc where
  r : Int
  g : Int
  b : Int
deriving DecidableEq

/-- The ambient Pillow / filesystem behaviour the module calls into.
* `pathExists p`: whether `os.path.exists(p)` is true;
* `loadOk p size`: whether `ImageFont.truetype(p, size)` succeeds (it can
  fail for a corrupt or unreadable file, or an invalid size);
* `bboxW font s` / `bboxH font s`: the width `bbox[2] - bbox[0]` and
  height `bbox[3] - bbox[1]` reported by `draw.textbbox((0,0), s, font)`;
* `inkCheck r g b a`: whether the drawing layer accepts an RGBA fill
  colour (`none`) or raises (`some e`) — acceptance of out-of-range
  channel values varies across Pillow versions, so it is part of the
  environment;
* `cov font s dx dy`: the antialiasing coverage in `[0,1]` with which
  `draw.text` paints the glyphs of `s` at offset `(dx, dy)` from the text
  origin. -/
structure Env where
  pathExists : String → Bool
  loadOk : String → Int → Bool
  bboxW : Font → PyStr → Nat
  bboxH : Font → PyStr → Nat
  inkCheck : Int → Int → Int → Int → Option PyErr
  cov : Font → PyStr → Int → Int → ℚ

/-- The candidate file names tried for each recognised style keyword
(`font_map` in `TextOverlay._get_font`). -/
def fontMap (style : String) : Option (List String) :=
  if style = "arial" then some ["arial.ttf", "Arial.ttf"]
  else if style = "times" then some ["times.ttf", "Times.ttc", "times new roman.ttf"]
  else if style = "helvetica" then some ["helvetica.ttf", "Helvetica.ttc"]
  else if style = "serif" then some ["times.ttf", "liberation-serif.ttf", "DejaVuSerif.ttf"]
  else if style = "sans-serif" then some ["arial.ttf", "liberation-sans.ttf", "DejaVuSans.ttf"]
  else none

/-- The well-known font directories probed by `_get_font` (all end in a
slash, so `os.path.join` is plain concatenation). -/
def basePaths : List String :=
  ["/System/Library/Fonts/", "C:/Windows/Fonts/", "/usr/share/fonts/truetype/"]

/-- The hardcoded full paths probed once at startup by
`TextOverlay._get_default_fonts`. -/
def fontPaths : List String :=
  ["C:/Windows/Fonts/arial.ttf",
   "C:/Windows/Fonts/times.ttf",
   "C:/Windows/Fonts/calibri.ttf",
   "/System/Library/Fonts/Arial.ttf",
   "/System/Library/Fonts/Times.ttc",
   "/System/Library/Fonts/Helvetica.ttc",
   "/usr/share/fonts/truetype/dejavu/DejaVuSans.ttf",
   "/usr/share/fonts/truetype/liberation/LiberationSerif-Regular.ttf"]

/-- Model of `TextOverlay._get_default_fonts`: the startup list of system fonts
that exist on disk, in probe order. -/
def get_default_fonts (env : Env) : List String :=
  fontPaths.filter env.pathExists

/-- Model of `str.lower()` (ASCII is all the style keywords use), computed
character by character. -/
def pyLower (s : String) : String := String.mk (s.data.map Char.toLower)

/-- The style-specific candidate paths of `_get_font`, in probe order:
for each candidate file name of the (lower-cased) style, each well-known
directory (name-outer, directory-inner, as the nested `for` loops run). -/
def styleCandidates (style : String) : List String :=
  match fontMap (pyLower style) with
  | some names => names.flatMap (fun name => basePaths.map (fun base => base ++ name))
  | none => []

/-- The `try` body of `TextOverlay._get_font`: for a recognised style, the
candidate file names are tried against each directory in order and the
first path that EXISTS is loaded — a failing load there raises (escaping
to the method's `except`); only when no candidate path exists does the
loop fall through to the startup list, where each font is tried under an
inner `try` until one loads; finally `ImageFont.load_default()`. -/
def getFontBody (env : Env) (size : Int) (style : String) : Except PyErr Font :=
  match (styleCandidates style).find? env.pathExists with
  | some path =>
    if env.loadOk path size then .ok (.truetype path size)
    else .error ⟨"truetype failed"⟩
  | none =>
    match (get_default_fonts env).find? (fun p => env.loadOk p size) with
    | some path => .ok (.truetype path size)
    | none => .ok .builtin

/-- Model of `TextOverlay._get_font(size, style)`: the body above with its
`except Exception` fallback to `ImageFont.load_default()`; never raises. -/
def get_font (env : Env) (size : Int) (style : String) : Font :=
  match getFontBody env size style with
  | .ok f => f
  | .error _ => .builtin

/-- The font-resolution procedure as claim C7 words it: return the first
style-specific candidate that loads at the requested size; if no
style-specific candidate loads, fall back to the startup list of system
fonts, trying each until one loads; otherwise the built-in default. -/
def getFontClaimed (env : Env) (size : Int) (style : String) : Font :=
  match (styleCandidates style).find? (fun p => env.pathExists p && env.loadOk p size) with
  | some path => .truetype path size
  | none =>
    match (get_default_fonts env).find? (fun p => env.loadOk p size) with
    | some path => .truetype path size
    | none => .builtin

/-- The probe string `"Ag"` whose bounding box supplies the line height. -/
def probeAg : PyStr := ['A', 'g']

/-- Model of `TextOverlay._get_text_width`: the pixel width of `text` under `font`,
as measured through a throwaway `draw.textbbox`. -/
def get_text_width (env : Env) (font : Font) (text : PyStr) : Nat :=
  env.bboxW font text

/-- Model of `TextOverlay._calculate_text_size(lines, font, line_spacing)`: the
block width is the maximum measured line width, the block height is
`len(lines) * line_height + (len(lines) - 1) * line_spacing` with the line
height taken from the `"Ag"` probe. -/
def calculate_text_size (env : Env) (font : Font) (lines : List PyStr)
    (lineSpacing : Int) : Int × Int :=
  if lines.isEmpty then (0, 0)
  else
    let maxW : Nat := (lines.map (fun l => get_text_width env font l)).foldl max 0
    let lineH : Nat := env.bboxH font probeAg
    let n : Int := lines.length
    (maxW, n * lineH + (n - 1) * lineSpacing)

/-- Model of `TextOverlay._calculate_position`: the block origin for each anchor
keyword, with unrecognised keywords treated as center and both
coordinates clamped at 0 on return (`//` is Python floor division). -/
def calculate_position (imgWidth imgHeight textWidth textHeight : Int)
    (position : String) (margin : Int) : Int × Int :=
  let xy : Int × Int :=
    if position = "center" then
      ((imgWidth - textWidth).fdiv 2, (imgHeight - textHeight).fdiv 2)
    else if position = "top" then
      ((imgWidth - textWidth).fdiv 2, margin)
    else if position = "bottom" then
      ((imgWidth - textWidth).fdiv 2, imgHeight - textHeight - margin)
    else if position = "left" then
      (margin, (imgHeight - textHeight).fdiv 2)
    else if position = "right" then
      (imgWidth - textWidth - margin, (imgHeight - textHeight).fdiv 2)
    else
      ((imgWidth - textWidth).fdiv 2, (imgHeight - textHeight).fdiv 2)
  (max 0 xy.1, max 0 xy.2)

/-- The anchor rule as claim C5 words it: center/top/bottom/left/right
formulas, unrecognised keywords behaving as center, each coordinate
floored at 0. -/
def positionClaimed (imgWidth imgHeight blockWidth blockHeight : Int)
    (position : String) (margin : Int) : Int × Int :=
  let cx := max 0 ((imgWidth - blockWidth).fdiv 2)
  let cy := max 0 ((imgHeight - blockHeight).fdiv 2)
  if position = "top" then (cx, max 0 margin)
  else if position = "bottom" then (cx, max 0 (imgHeight - blockHeight - margin))
  else if position = "left" then (max 0 margin, cy)
  else if position = "right" then (max 0 (imgWidth - blockWidth - margin), cy)
  else (cx, cy)

/-- Model of `image.copy()`: a new image object with identical mode, size and
pixel data. -/
def Image.copy (img : Image) : Image := img

/-- Model of `image.convert('RGBA')`: an RGB image gains an opaque alpha channel;
an RGBA image is returned as is. -/
def Image.convertRGBA (img : Image) : Image :=
  match img.mode with
  | .rgba => img
  | .rgb => { img with mode := .rgba, px := fun x y => { img.px x y with a := 255 } }

/-- Model of `image.convert('RGB')`: drop the alpha channel (normalised here to a
stored alpha of 255). -/
def Image.convertRGB (img : Image) : Image :=
  { img with mode := .rgb, px := fun x y => { img.px x y with a := 255 } }

/-- Convert to a given mode. -/
def Image.convertTo (img : Image) (m : Mode) : Image :=
  match m with
  | .rgb => img.convertRGB
  | .rgba => img.convertRGBA

/-- Model of `dst.paste(src)` for a same-size source: the pasted image is first
converted to the destination's mode, and the destination's pixel data is
replaced; the destination object keeps its mode and size. -/
def Image.pasteFull (dst src : Image) : Image :=
  { dst with px := fun x y => (src.convertTo dst.mode).px x y }

/-- Model of `Image.alpha_composite(dst, src)` for same-size RGBA images, in exact
arithmetic on the 0–255 scale: `over` compositing of `src` above `dst`
(`outA = srcA + dstA*(255-srcA)/255`, colours premultiplied-blended and
un-premultiplied, a fully transparent result pixel being all zero). -/
def alphaComposite (dst src : Image) : Image :=
  { mode := .rgba, width := dst.width, height := dst.height,
    px := fun x y =>
      let d := dst.px x y
      let s := src.px x y
      let oa := s.a + d.a * (255 - s.a) / 255
      if oa = 0 then ⟨0, 0, 0, 0⟩
      else
        ⟨(s.r * s.a + d.r * d.a * (255 - s.a) / 255) / oa,
         (s.g * s.a + d.g * d.a * (255 - s.a) / 255) / oa,
         (s.b * s.a + d.b * d.a * (255 - s.a) / 255) / oa,
         oa⟩ }

/-- The backing-plate rectangle of `TextOverlay._add_text_background`:
the text block bounds inflated by `padding` on every side and clamped to
the image bounds (`bg_x1, bg_y1, bg_x2, bg_y2` of lines 257–260). -/
def bgRect (imgWidth imgHeight x y w h padding : Int) : Int × Int × Int × Int :=
  (max 0 (x - padding), max 0 (y - padding),
   min imgWidth (x + w + padding), min imgHeight (y + h + padding))

/-- Membership of the pixel `(px, py)` in a Pillow rectangle
`[x1, y1, x2, y2]` (both corners inclusive; an inverted rectangle holds
no pixels). -/
def inRect (r : Int × Int × Int × Int) (px py : Nat) : Prop :=
  r.1 ≤ (px : Int) ∧ (px : Int) ≤ r.2.2.1 ∧ r.2.1 ≤ (py : Int) ∧ (py : Int) ≤ r.2.2.2

instance (r : Int × Int × Int × Int) (px py : Nat) : Decidable (inRect r px py) := by
  unfold inRect
  infer_instance

/-- Model of `TextOverlay._add_text_background(image, x, y, width, height, color,
opacity, padding)`: build a transparent RGBA overlay of the image's size,
draw on it the clamped, padding-inflated rectangle filled with the
background colour at alpha `int(255 * opacity)`, alpha-composite the
overlay above the RGBA-converted image, flatten to RGB and paste the
result back over the image.  The fill colour is validated by the drawing
layer (`Env.inkCheck`); a rejected colour raises before any mutation. -/
def add_text_background (env : Env) (img : Image) (x y w h : Int)
    (color : RGBc) (opacity : ℚ) (padding : Int) : Except PyErr Image :=
  let r := bgRect img.width img.height x y w h padding
  let aInt := pyInt (255 * opacity)
  match env.inkCheck color.r color.g color.b aInt with
  | some e => .error e
  | none =>
    let overlay : Image :=
      { mode := .rgba, width := img.width, height := img.height,
        px := fun px py =>
          if inRect r px py then ⟨color.r, color.g, color.b, aInt⟩
          else ⟨0, 0, 0, 0⟩ }
    .ok (img.pasteFull ((alphaComposite img.convertRGBA overlay).convertRGB))

/-- One `draw.text((lineX, lineY), line, font, fill)` call: the fill
colour is validated, then the glyph coverage of the line is blended over
the pixel data (the image object keeps its mode and size). -/
def drawLine (env : Env) (font : Font) (line : PyStr) (lineX lineY : Int)
    (color : RGBc) (img : Image) : Except PyErr Image :=
  match env.inkCheck color.r color.g color.b 255 with
  | some e => .error e
  | none =>
    .ok { img with px := fun x y =>
      let k := env.cov font line ((x : Int) - lineX) ((y : Int) - lineY)
      let p := img.px x y
      ⟨k * color.r + (1 - k) * p.r,
       k * color.g + (1 - k) * p.g,
       k * color.b + (1 - k) * p.b,
       k * 255 + (1 - k) * p.a⟩ }

/-- The per-line loop of `TextOverlay._draw_text`: each line is placed at
`x` adjusted for the alignment against the freshly recomputed block width
(`_calculate_text_size(lines, ...)` is re-evaluated inside the loop on
the full line list), drawn, and the y cursor advanced by
`line_height + line_spacing`. -/
def drawTextGo (env : Env) (font : Font) (allLines : List PyStr) (x : Int)
    (color : RGBc) (lineSpacing : Int) (alignment : String) (lineH : Int) :
    List PyStr → Int → Image → Except PyErr Image
  | [], _, img => .ok img
  | line :: rest, curY, img =>
    let lineX : Int :=
      if alignment = "center" then
        let lineW : Int := get_text_width env font line
        x + ((calculate_text_size env font allLines lineSpacing).1 - lineW).fdiv 2
      else if alignment = "right" then
        let lineW : Int := get_text_width env font line
        x + ((calculate_text_size env font allLines lineSpacing).1 - lineW)
      else x
    match drawLine env font line lineX curY color img with
    | .error e => .error e
    | .ok img2 => drawTextGo env font allLines x color lineSpacing alignment
        lineH rest (curY + lineH + lineSpacing) img2

/-- Model of `TextOverlay._draw_text(image, lines, x, y, font, color, line_spacing,
alignment)`: measure the line height from the `"Ag"` probe, then draw each
line in turn. -/
def draw_text (env : Env) (img : Image) (lines : List PyStr) (x y : Int)
    (font : Font) (color : RGBc) (lineSpacing : Int) (alignment : String) :
    Except PyErr Image :=
  let lineH : Int := env.bboxH font probeAg
  drawTextGo env font lines x color lineSpacing alignment lineH lines y img

/-- The styling parameters of `add_text_overlay`, with the documented
defaults. -/
structure StyleConfig where
  font_size : Int := 24
  font_color : RGBc := ⟨255, 255, 255⟩
  position : String := "center"
  background_opacity : ℚ := 7 / 10
  background_color : RGBc := ⟨0, 0, 0⟩
  margin : Int := 50
  line_spacing : Int := 10
  font_style : String := "arial"
  text_alignment : String := "center"
  max_width_ratio : ℚ := 8 / 10

/-- The two image objects alive during a call to `add_text_overlay`: the
caller's `image` argument and the local `result_image`. -/
structure Store where
  caller : Image
  work : Image

/-- A reference to one of the two image objects. -/
inductive ImgRef
  | caller
  | work
deriving DecidableEq

/-- Read an image object. -/
def Store.get (σ : Store) : ImgRef → Image
  | .caller => σ.caller
  | .work => σ.work

/-- Overwrite an image object (the value an in-place mutation leaves it
with). -/
def Store.set (σ : Store) : ImgRef → Image → Store
  | .caller, i => { σ with caller := i }
  | .work, i => { σ with work := i }

/-- Model of `self._add_text_background(ref, ...)` as a store action: the helper
mutates exactly the object it is handed.  The source hands it
`result_image` only. -/
def addTextBackgroundS (env : Env) (ref : ImgRef) (σ : Store) (x y w h : Int)
    (color : RGBc) (opacity : ℚ) (padding : Int) : Except PyErr Store :=
  match add_text_background env (σ.get ref) x y w h color opacity padding with
  | .error e => .error e
  | .ok i => .ok (σ.set ref i)

/-- Model of `self._draw_text(ref, ...)` as a store action (a failure part-way
through the line loop is collapsed to the store before the call; the
caller object is unaffected either way). -/
def drawTextS (env : Env) (ref : ImgRef) (σ : Store) (lines : List PyStr)
    (x y : Int) (font : Font) (color : RGBc) (lineSpacing : Int)
    (alignment : String) : Except PyErr Store :=
  match draw_text env (σ.get ref) lines x y font color lineSpacing alignment with
  | .error e => .error e
  | .ok i => .ok (σ.set ref i)

/-- The `try` body of `TextOverlay.add_text_overlay`, threaded through the
two-object store: copy the input into `result_image`, resolve the font,
wrap, size, position, draw the backing plate when `background_opacity > 0`
and then the text — every mutating call targeting the `work` object.
Returns the final store together with the returned image or the escaping
exception. -/
def overlayRun (env : Env) (image : Image) (text : PyStr) (cfg : StyleConfig) :
    Store × Except PyErr Image :=
  let σ0 : Store := ⟨image, Image.copy image⟩
  let font := get_font env cfg.font_size cfg.font_style
  let maxWidth := pyInt ((image.width : ℚ) * cfg.max_width_ratio)
  let wrapped := wrapText (fun s => get_text_width env font s) maxWidth text
  let ts := calculate_text_size env font wrapped cfg.line_spacing
  let pos := calculate_position image.width image.height ts.1 ts.2
    cfg.position cfg.margin
  let afterBg : Except PyErr Store :=
    if cfg.background_opacity > 0 then
      addTextBackgroundS env .work σ0 pos.1 pos.2 ts.1 ts.2
        cfg.background_color cfg.background_opacity (cfg.margin.fdiv 2)
    else .ok σ0
  match afterBg with
  | .error e => (σ0, .error e)
  | .ok σ1 =>
    match drawTextS env .work σ1 wrapped pos.1 pos.2 font cfg.font_color
        cfg.line_spacing cfg.text_alignment with
    | .error e => (σ1, .error e)
    | .ok σ2 => (σ2, .ok (σ2.get .work))

/-- Model of `TextOverlay.add_text_overlay`: the body above with its top-level
`except Exception` boundary — on success the drawn-on copy is returned,
on any exception the caller's `image` object (as it then stands) is
returned.  The function is total: no exception ever propagates. -/
def add_text_overlay (env : Env) (image : Image) (text : PyStr)
    (cfg : StyleConfig) : Image :=
  let run := overlayRun env image text cfg
  match run.2 with
  | .ok r => r
  | .error _ => run.1.caller

/-- The font resolution as the code actually behaves (the amendment of
claim C7): the first style-specific candidate path that EXISTS is the one
and only style candidate tried — if it fails to load, the resolver falls
straight through to the built-in default font (the startup list is not
consulted); only when no style candidate exists is the startup list
scanned for the first font that loads; otherwise the built-in default. -/
def getFontAmended (env : Env) (size : Int) (style : String) : Font :=
  match (styleCandidates style).find? env.pathExists with
  | some path => if env.loadOk path size then .truetype path size else .builtin
  | none =>
    match (get_default_fonts env).find? (fun p => env.loadOk p size) with
    | some path => .truetype path size
    | none => .builtin

/-- All whitespace-separated words of the input text, paragraph by
paragraph (what claim C4 calls "a single word" of the input). -/
def inputWords (text : PyStr) : List PyStr :=
  (splitNl text).flatMap pyWords

/-- Claim C4 as stated: every display line either measures within the
maximum width or is one of the input's words, emitted whole. -/
def wrapClaimedOk (w : PyStr → Nat) (maxWidth : Int) (text : PyStr) : Prop :=
  ∀ line ∈ wrapText w maxWidth text,
    (w line : Int) ≤ maxWidth ∨ line ∈ inputWords text

/-- The backing-plate blend as the code actually computes it for a fully
opaque source (the amendment of claim C6): the plate colour is blended at
the quantised alpha `int(255*opacity) / 255`, and the pixel is flattened
to full opacity. -/
def plateBlend (aInt : Int) (color : RGBc) (p : Pixel) : Pixel :=
  ⟨color.r * (aInt / 255 : ℚ) + p.r * (1 - aInt / 255),
   color.g * (aInt / 255 : ℚ) + p.g * (1 - aInt / 255),
   color.b * (aInt / 255 : ℚ) + p.b * (1 - aInt / 255),
   255⟩

/-- Claim C6 as stated, at one argument tuple: whenever the compositor
succeeds, every pixel inside the inflated, clamped rectangle equals
`plate_color × opacity + existing_pixel × (1 − opacity)` per colour
channel, and every pixel outside is unchanged — for any source image,
including one carrying partial transparency. -/
def backgroundClaimedOk (env : Env) (img : Image) (x y w h : Int)
    (color : RGBc) (opacity : ℚ) (padding : Int) : Prop :=
  ∀ res, add_text_background env img x y w h color opacity padding = .ok res →
    ∀ px py, px < img.width → py < img.height →
      ((inRect (bgRect img.width img.height x y w h padding) px py →
        (res.px px py).r = color.r * opacity + (img.px px py).r * (1 - opacity) ∧
        (res.px px py).g = color.g * opacity + (img.px px py).g * (1 - opacity) ∧
        (res.px px py).b = color.b * opacity + (img.px px py).b * (1 - opacity)) ∧
       (¬ inRect (bgRect img.width img.height x y w h padding) px py →
        res.px px py = img.px px py))

/-- A pixel-width measure used for concrete wrapping tests: ten pixels per
character. -/
def w10 (s : PyStr) : Nat := 10 * s.length

/-- A 60-character single word. -/
def text60 : PyStr := List.replicate 60 'a'

/-- A drawing layer that validates fill channels against 0–255 (as the
newer Pillow releases do) and otherwise raises. -/
def inkCheckRange (r g b a : Int) : Option PyErr :=
  if 0 ≤ r ∧ r ≤ 255 ∧ 0 ≤ g ∧ g ≤ 255 ∧ 0 ≤ b ∧ b ≤ 255 ∧ 0 ≤ a ∧ a ≤ 255
  then none
  else some ⟨"bad color"⟩

/-- An environment with no font files, ten-pixels-per-character metrics,
and a range-checking drawing layer. -/
def envStrict : Env :=
  ⟨fun _ => false, fun _ _ => true, fun _ s => s.length, fun _ _ => 10,
   inkCheckRange, fun _ _ _ _ => 0⟩

/-- An environment whose drawing layer accepts every fill colour. -/
def envAccept : Env :=
  ⟨fun _ => false, fun _ _ => true, fun _ s => s.length, fun _ _ => 10,
   fun _ _ _ _ => none, fun _ _ _ _ => 0⟩

/-- The first style candidate path probed for the "arial" style. -/
def sysArialPath : String := "/System/Library/Fonts/arial.ttf"

/-- The one startup-list font that exists in `envFontBad`. -/
def dejavuPath : String := "/usr/share/fonts/truetype/dejavu/DejaVuSans.ttf"

/-- An environment where the arial candidate file exists but is corrupt
(`ImageFont.truetype` fails on it) while the DejaVu startup font exists
and loads. -/
def envFontBad : Env :=
  ⟨fun p => p == sysArialPath || p == dejavuPath,
   fun p _ => p == dejavuPath,
   fun _ s => s.length, fun _ _ => 10, fun _ _ _ _ => none, fun _ _ _ _ => 0⟩

/-- A 4×3 opaque RGB test image. -/
def img43 : Image := ⟨.rgb, 4, 3, fun _ _ => ⟨1, 2, 3, 255⟩⟩

/-- A style configuration with the malformed opacity 5.0. -/
def cfgOp5 : StyleConfig := { background_opacity := 5 }

/-- A 2×1 RGBA image whose second pixel carries partial transparency. -/
def imgTrans : Image :=
  ⟨.rgba, 2, 1, fun x _ => if x = 0 then ⟨50, 60, 70, 255⟩ else ⟨10, 20, 30, 100⟩⟩

/-- A 1×1 opaque white RGB image. -/
def imgWhite : Image := ⟨.rgb, 1, 1, fun _ _ => ⟨255, 255, 255, 255⟩⟩

/-- The opacity 0.5, as a reduced fraction literal. -/
def qHalf : ℚ := ⟨1, 2, by decide, by decide⟩

/-- The default opacity 0.7, as a reduced fraction literal. -/
def q710 : ℚ := ⟨7, 10, by decide, by decide⟩

/-- An 11-character two-word paragraph. -/
def helloWorld : PyStr := ['h', 'e', 'l', 'l', 'o', ' ', 'w', 'o', 'r', 'l', 'd']

/-- The image produced by a successful `_add_text_background` call (the
input image itself when the call raises). -/
def bgResult (env : Env) (img : Image) (x y w h : Int) (color : RGBc)
    (opacity : ℚ) (padding : Int) : Image :=
  match add_text_background env img x y w h color opacity padding with
  | .ok res => res
  | .error _ => img

theorem removeWs_append (a b : PyStr) :
    removeWs (a ++ b) = removeWs a ++ removeWs b := by
  simp [removeWs]

theorem removeWs_nil : removeWs [] = [] := rfl

theorem removeWs_eq_nil {s : PyStr} :
    removeWs s = [] ↔ stripEmpty s = true := by
  simp [removeWs, stripEmpty, List.filter_eq_nil_iff, List.all_eq_true]

theorem stripEmpty_removeWs {s : PyStr} (h : stripEmpty s = true) :
    removeWs s = [] := removeWs_eq_nil.2 h

theorem cat_cons (l : PyStr) (ls : List PyStr) : cat (l :: ls) = l ++ cat ls := rfl

theorem cat_append (a b : List PyStr) : cat (a ++ b) = cat a ++ cat b := by
  simp [cat]

theorem cat_nil : cat [] = [] := rfl

theorem splitChunks_cat (s : PyStr) : cat (splitChunks s) = s := by
  induction s with
  | nil => rfl
  | cons c rest ih =>
    rw [splitChunks]
    rcases hsc : splitChunks rest with _ | ⟨head, tail⟩
    · rw [hsc] at ih
      simp [cat] at ih
      simp [cat, ih]
    · rcases head with _ | ⟨d, ds⟩
      · rw [hsc] at ih
        simpa [cat_cons] using ih
      · rw [hsc] at ih
        by_cases hsame : isUniSpace c = isUniSpace d
      <;> simp [hsame, cat_cons] at ih ⊢ <;> simp [ih]

theorem removeWs_cons_ws {c : Char} (h : isUniSpace c = true) (s : PyStr) :
    removeWs (c :: s) = removeWs s := by
  simp [removeWs, List.filter_cons, h]

theorem removeWs_cons_nws {c : Char} (h : isUniSpace c = false) (s : PyStr) :
    removeWs (c :: s) = c :: removeWs s := by
  simp [removeWs, List.filter_cons, h]

theorem replicate_space_removeWs (n : Nat) : removeWs (List.replicate n ' ') = [] := by
  induction n with
  | zero => rfl
  | succ k ih =>
    rw [List.replicate_succ, removeWs_cons_ws (by decide), ih]

theorem expandTabs_removeWs (s : PyStr) : ∀ col, removeWs (expandTabsGo col s) = removeWs s := by
  induction s with
  | nil => intro _; rfl
  | cons c rest ih =>
    intro col
    rw [expandTabsGo]
    by_cases ht : c = '\t'
    · subst ht
      rw [if_pos rfl, removeWs_append, replicate_space_removeWs, List.nil_append, ih,
        removeWs_cons_ws (by decide)]
    · rw [if_neg ht]
      by_cases hnr : c = '\n' ∨ c = '\r'
      · rw [if_pos hnr]
        have hws : isUniSpace c = true := by
          rcases hnr with h | h <;> rw [h] <;> decide
        rw [removeWs_cons_ws hws, removeWs_cons_ws hws, ih]
      · rw [if_neg hnr]
        by_cases hw : isUniSpace c = true
        · rw [removeWs_cons_ws hw, removeWs_cons_ws hw, ih]
        · rw [removeWs_cons_nws (by simpa using hw), removeWs_cons_nws (by simpa using hw), ih]

theorem mungeSpace_isUniSpace {c : Char} (h : isMungeSpace c = true) :
    isUniSpace c = true := by
  have hcases : c = '\t' ∨ c = '\n' ∨ c = '\u000B' ∨ c = '\u000C' ∨ c = '\r' ∨ c = ' ' := by
    simpa [isMungeSpace, or_assoc] using h
  rcases hcases with h1 | h1 | h1 | h1 | h1 | h1 <;> rw [h1] <;> decide

theorem map_munge_removeWs (s : PyStr) :
    removeWs (s.map (fun c => if isMungeSpace c then ' ' else c)) = removeWs s := by
  induction s with
  | nil => rfl
  | cons c rest ih =>
    rw [List.map_cons]
    by_cases hm : isMungeSpace c = true
    · simp only [hm, if_true]
      rw [removeWs_cons_ws (by decide), removeWs_cons_ws (mungeSpace_isUniSpace hm), ih]
    · simp only [hm, if_false, Bool.false_eq_true]
      by_cases hw : isUniSpace c = true
      · rw [removeWs_cons_ws hw, removeWs_cons_ws hw, ih]
      · rw [removeWs_cons_nws (by simpa using hw), removeWs_cons_nws (by simpa using hw), ih]

theorem munge_removeWs (s : PyStr) : removeWs (munge s) = removeWs s := by
  unfold munge
  rw [map_munge_removeWs, expandTabs_removeWs]

theorem sumLen_cons (c : PyStr) (cs : List PyStr) :
    sumLen (c :: cs) = c.length + sumLen cs := by
  simp [sumLen]

theorem muChunks_cons (c : PyStr) (cs : List PyStr) :
    muChunks (c :: cs) = c.length + 1 + muChunks cs := by
  simp [muChunks, sumLen_cons]
  omega

theorem muChunks_append (a b : List PyStr) :
    muChunks (a ++ b) = muChunks a + muChunks b := by
  induction a with
  | nil => simp [muChunks, sumLen]
  | cons c t ih => simp [muChunks_cons, ih]; omega

theorem fill_append (width n : Nat) (cs : List PyStr) :
    (fill width n cs).1 ++ (fill width n cs).2 = cs := by
  induction cs generalizing n with
  | nil => rfl
  | cons c rest ih =>
    rw [fill]
    by_cases h : n + c.length ≤ width
    · simp only [if_pos h, List.cons_append, List.cons.injEq, true_and]
      exact ih (n + c.length)
    · simp [if_neg h]

theorem fill_nil_head {width n : Nat} {c : PyStr} {rest : List PyStr}
    (h : (fill width n (c :: rest)).1 = []) : width < n + c.length := by
  rw [fill] at h
  by_cases hle : n + c.length ≤ width
  · simp [if_pos hle] at h
  · omega

theorem hlw_cat (curLine : List PyStr) (n : Nat) (chunks : List PyStr) :
    cat (hlw curLine n chunks).1 ++ cat (hlw curLine n chunks).2 =
      cat curLine ++ cat chunks := by
  cases chunks with
  | nil => simp [hlw]
  | cons chunk tail =>
    simp only [hlw, cat_cons, cat_append, cat]
    generalize (if 50 - n < chunk.length then _ else 50 - n) = e
    simp only [List.flatten_append, List.flatten_cons, List.flatten_nil,
      List.append_nil, List.append_assoc]
    rw [← List.append_assoc (List.take e chunk) (List.drop e chunk),
      List.take_append_drop]

theorem hlw_mu_le (curLine : List PyStr) (n : Nat) (chunk : PyStr) (tail : List PyStr) :
    muChunks (hlw curLine n (chunk :: tail)).2 ≤ muChunks (chunk :: tail) := by
  simp only [hlw, muChunks_cons, List.length_drop]
  generalize (if 50 - n < chunk.length then _ else 50 - n) = e
  omega

theorem hlw_e_pos (curLine : List PyStr) (chunk : PyStr) (tail : List PyStr)
    (hlen : 50 < chunk.length) :
    muChunks (hlw curLine 0 (chunk :: tail)).2 < muChunks (chunk :: tail) := by
  simp only [hlw, muChunks_cons, List.length_drop, Nat.sub_zero]
  have he : ∀ e : Nat, 1 ≤ e → chunk.length - e + 1 + muChunks tail <
      chunk.length + 1 + muChunks tail := by
    intro e h1
    omega
  rw [if_pos hlen]
  rcases hr : rfindHy chunk 50 with _ | i
  · simp only [hr]
    exact he 50 (by omega)
  · simp only [hr]
    by_cases hc : 0 < i ∧ ((chunk.take i).any (fun c => !(decide (c = '-')))) = true
    · rw [if_pos hc]
      exact he (i + 1) (by omega)
    · rw [if_neg hc]
      exact he 50 (by omega)

theorem dropLead_removeWs (h : Bool) (cs : List PyStr) :
    removeWs (cat (dropLead h cs)) = removeWs (cat cs) := by
  cases cs with
  | nil => rfl
  | cons c rest =>
    rw [dropLead]
    by_cases hc : h = true ∧ stripEmpty c = true
    · rw [if_pos hc, cat_cons, removeWs_append, stripEmpty_removeWs hc.2, List.nil_append]
    · rw [if_neg hc]

theorem dropLead_mu_le (h : Bool) (cs : List PyStr) :
    muChunks (dropLead h cs) ≤ muChunks cs := by
  cases cs with
  | nil => exact le_refl _
  | cons c rest =>
    rw [dropLead]
    by_cases hc : h = true ∧ stripEmpty c = true
    · rw [if_pos hc, muChunks_cons]; omega
    · rw [if_neg hc]

theorem longWordStep_cat (pr : List PyStr × List PyStr) :
    cat (longWordStep pr).1 ++ cat (longWordStep pr).2 = cat pr.1 ++ cat pr.2 := by
  rcases h2 : pr.2 with _ | ⟨d, tail⟩
  · simp [longWordStep, h2, cat]
  · by_cases hlen : 50 < d.length
    · simp only [longWordStep, h2, if_pos hlen]
      exact hlw_cat pr.1 (sumLen pr.1) (d :: tail)
    · simp only [longWordStep, h2, if_neg hlen]

theorem longWordStep_mu_le (pr : List PyStr × List PyStr) :
    muChunks (longWordStep pr).2 ≤ muChunks pr.2 := by
  rcases h2 : pr.2 with _ | ⟨d, tail⟩
  · simp [longWordStep, h2]
  · by_cases hlen : 50 < d.length
    · simp only [longWordStep, h2, if_pos hlen]
      exact hlw_mu_le pr.1 (sumLen pr.1) d tail
    · simp only [longWordStep, h2, if_neg hlen]
      exact le_refl _

theorem dropTrailingWs_removeWs (cl : List PyStr) :
    removeWs (cat (dropTrailingWs cl)) = removeWs (cat cl) := by
  rcases hl : cl.getLast? with _ | last
  · simp only [dropTrailingWs, hl]
  · by_cases hws : stripEmpty last = true
    · simp only [dropTrailingWs, hl, if_pos hws]
      have hne : cl ≠ [] := by
        intro hnil
        rw [hnil] at hl
        exact Option.noConfusion hl
      have hdec : cl = cl.dropLast ++ [last] := by
        conv_lhs => rw [← List.dropLast_append_getLast hne]
        rw [List.getLast?_eq_getLast cl hne, Option.some.injEq] at hl
        rw [hl]
      conv_rhs => rw [hdec]
      rw [cat_append, removeWs_append]
      simp [cat, stripEmpty_removeWs hws]
    · simp only [dropTrailingWs, hl, if_neg hws]

theorem sumLen_nil : sumLen [] = 0 := rfl

theorem fill_mu_le (width n : Nat) (cs : List PyStr) :
    muChunks (fill width n cs).2 ≤ muChunks cs := by
  conv_rhs => rw [← fill_append width n cs]
  rw [muChunks_append]
  omega

theorem wrapIter_getD (h : Bool) (cs : List PyStr) :
    (wrapIter h cs).1.getD [] =
      cat (dropTrailingWs (longWordStep (fill 50 0 (dropLead h cs))).1) := by
  simp only [wrapIter]
  by_cases he : (dropTrailingWs (longWordStep (fill 50 0 (dropLead h cs))).1).isEmpty = true
  · rw [if_pos he]
    rw [List.isEmpty_iff] at he
    rw [he]
    rfl
  · rw [if_neg he]
    rfl

theorem wrapIter_snd (h : Bool) (cs : List PyStr) :
    (wrapIter h cs).2 = (longWordStep (fill 50 0 (dropLead h cs))).2 := rfl

theorem wrapIter_removeWs (h : Bool) (cs : List PyStr) :
    removeWs ((wrapIter h cs).1.getD [] ++ cat (wrapIter h cs).2) =
      removeWs (cat cs) := by
  rw [wrapIter_getD, wrapIter_snd, removeWs_append, dropTrailingWs_removeWs,
    ← removeWs_append, longWordStep_cat, ← cat_append, fill_append,
    dropLead_removeWs]

theorem wrapIter_mu (h : Bool) (cs : List PyStr) (hne : cs ≠ []) :
    muChunks (wrapIter h cs).2 < muChunks cs := by
  rw [wrapIter_snd]
  rcases cs with _ | ⟨c, rest⟩
  · exact absurd rfl hne
  by_cases hd : h = true ∧ stripEmpty c = true
  · have hdl : dropLead h (c :: rest) = rest := by
      simp only [dropLead, if_pos hd]
    rw [hdl]
    have h1 := longWordStep_mu_le (fill 50 0 rest)
    have h2 := fill_mu_le 50 0 rest
    rw [muChunks_cons]
    omega
  · have hdl : dropLead h (c :: rest) = c :: rest := by
      simp only [dropLead, if_neg hd]
    rw [hdl]
    rcases hp : (fill 50 0 (c :: rest)).1 with _ | ⟨p0, ps⟩
    · have hr2 : (fill 50 0 (c :: rest)).2 = c :: rest := by
        have hap := fill_append 50 0 (c :: rest)
        rw [hp] at hap
        simpa using hap
      have hlen : 50 < c.length := by
        have := fill_nil_head hp
        omega
      simp only [longWordStep, hr2, hp, if_pos hlen, sumLen_nil]
      exact hlw_e_pos [] c rest hlen
    · have hsplit := fill_append 50 0 (c :: rest)
      rw [hp] at hsplit
      have h1 := longWordStep_mu_le (fill 50 0 (c :: rest))
      have h2 : muChunks ((p0 :: ps) ++ (fill 50 0 (c :: rest)).2) =
          muChunks (c :: rest) := by rw [hsplit]
      rw [muChunks_append, muChunks_cons] at h2
      omega

theorem wrapGo_removeWs :
    ∀ (fuel : Nat) (h : Bool) (cs : List PyStr), muChunks cs < fuel →
      removeWs (cat (wrapChunksGo fuel h cs)) = removeWs (cat cs) := by
  intro fuel
  induction fuel with
  | zero => intro h cs hmu; omega
  | succ f ih =>
    intro h cs hmu
    rcases cs with _ | ⟨c, rest⟩
    · rfl
    rcases hiter : wrapIter h (c :: rest) with ⟨oline, rem⟩
    have hmu2 : muChunks rem < f := by
      have h1 := wrapIter_mu h (c :: rest) (by simp)
      rw [hiter] at h1
      simp only at h1
      have h2 : muChunks (c :: rest) = c.length + 1 + muChunks rest :=
        muChunks_cons c rest
      omega
    have hpres := wrapIter_removeWs h (c :: rest)
    rw [hiter] at hpres
    rcases oline with _ | line
    · simp only [wrapChunksGo, hiter]
      rw [ih h rem hmu2]
      simpa [removeWs_append] using hpres
    · simp only [wrapChunksGo, hiter]
      rw [cat_cons, removeWs_append, ih true rem hmu2]
      simpa [removeWs_append] using hpres

theorem textwrapWrap_removeWs (p : PyStr) :
    removeWs (cat (textwrapWrap p)) = removeWs p := by
  simp only [textwrapWrap]
  rw [wrapGo_removeWs _ _ _ (by omega), splitChunks_cat, munge_removeWs]

theorem greedyGo_removeWs (w : PyStr → Nat) (mw : Int) :
    ∀ (words : List PyStr) (cur : PyStr),
      removeWs (cat (greedyGo w mw cur words)) =
        removeWs cur ++ removeWs (cat words) := by
  intro words
  induction words with
  | nil =>
    intro cur
    rw [greedyGo]
    by_cases hc : cur.isEmpty = true
    · rw [if_pos hc]
      rw [List.isEmpty_iff] at hc
      simp [hc, cat, removeWs_nil]
    · rw [if_neg hc]
      simp [cat, cat_cons, removeWs_append, removeWs_nil]
  | cons word rest ih =>
    intro cur
    rw [greedyGo]
    have htest_rm :
        removeWs (if cur.isEmpty then word else cur ++ ' ' :: word) =
          removeWs cur ++ removeWs word := by
      by_cases hc : cur.isEmpty = true
      · rw [List.isEmpty_iff] at hc
        simp [hc, removeWs_nil]
      · rw [if_neg hc, removeWs_append, removeWs_cons_ws (by decide)]
    by_cases hw :
        ((w (if cur.isEmpty then word else cur ++ ' ' :: word) : Int) ≤ mw)
    · rw [if_pos hw, ih _, htest_rm, cat_cons, removeWs_append]
      simp [List.append_assoc]
    · rw [if_neg hw]
      by_cases hc : cur.isEmpty = true
      · rw [if_pos hc, ih word]
        rw [List.isEmpty_iff] at hc
        simp [hc, cat_cons, removeWs_append, removeWs_nil]
      · rw [if_neg hc, cat_cons, removeWs_append, ih word, cat_cons,
          removeWs_append]

theorem filter_stripEmpty_removeWs (cs : List PyStr) :
    removeWs (cat (cs.filter (fun wd => !(stripEmpty wd)))) =
      removeWs (cat cs) := by
  induction cs with
  | nil => rfl
  | cons c t ih =>
    rw [List.filter_cons]
    by_cases hc : stripEmpty c = true
    · simp only [hc, Bool.not_true, Bool.false_eq_true, if_false]
      rw [ih, cat_cons, removeWs_append, stripEmpty_removeWs hc, List.nil_append]
    · have hc' : (!(stripEmpty c)) = true := by simp [hc]
      simp only [hc', if_true]
      rw [cat_cons, cat_cons, removeWs_append, removeWs_append, ih]

theorem pyWords_removeWs (s : PyStr) :
    removeWs (cat (pyWords s)) = removeWs s := by
  unfold pyWords
  rw [filter_stripEmpty_removeWs, splitChunks_cat]

theorem refineLine_removeWs (w : PyStr → Nat) (mw : Int) (line : PyStr) :
    removeWs (cat (refineLine w mw line)) = removeWs line := by
  unfold refineLine
  by_cases h : (w line : Int) ≤ mw
  · rw [if_pos h]
    simp [cat, removeWs_append]
  · rw [if_neg h, greedyGo_removeWs, pyWords_removeWs]
    rfl

theorem flatMap_removeWs (f : PyStr → List PyStr) (ls : List PyStr)
    (hf : ∀ l ∈ ls, removeWs (cat (f l)) = removeWs l) :
    removeWs (cat (ls.flatMap f)) = removeWs (cat ls) := by
  induction ls with
  | nil => rfl
  | cons l t ih =>
    rw [List.flatMap_cons, cat_append, removeWs_append, hf l (by simp),
      cat_cons, removeWs_append, ih (fun x hx => hf x (by simp [hx]))]

theorem wrapPara_removeWs (w : PyStr → Nat) (mw : Int) (p : PyStr) :
    removeWs (cat (wrapPara w mw p)) = removeWs p := by
  unfold wrapPara
  by_cases h : stripEmpty p = true
  · rw [if_pos h, stripEmpty_removeWs h]
    rfl
  · rw [if_neg h, flatMap_removeWs _ _ (fun l _ => refineLine_removeWs w mw l),
      textwrapWrap_removeWs]

theorem splitChunks_uniform (s : PyStr) :
    ∀ ch ∈ splitChunks s,
      ch ≠ [] ∧ ∀ c1 ∈ ch, ∀ c2 ∈ ch, isUniSpace c1 = isUniSpace c2 := by
  induction s with
  | nil => intro ch h; exact absurd h (by simp [splitChunks])
  | cons c rest ih =>
    intro ch hch
    rw [splitChunks] at hch
    rcases hsc : splitChunks rest with _ | ⟨head, tail⟩
    · rw [hsc] at hch
      simp only [List.mem_singleton] at hch
      subst hch
      refine ⟨by simp, ?_⟩
      intro c1 h1 c2 h2
      simp only [List.mem_singleton] at h1 h2
      rw [h1, h2]
    · rw [hsc] at hch
      rcases head with _ | ⟨d, ds⟩
      · exfalso
        exact (ih [] (by rw [hsc]; simp)).1 rfl
      · by_cases hsame : isUniSpace c = isUniSpace d
        · simp only [if_pos hsame] at hch
          rcases List.mem_cons.1 hch with h | h
          · subst h
            refine ⟨by simp, ?_⟩
            have huni := ih (d :: ds) (by rw [hsc]; simp)
            have hcls : ∀ x ∈ d :: ds, isUniSpace x = isUniSpace d :=
              fun x hx => huni.2 x hx d (by simp)
            have hcls2 : ∀ x ∈ c :: d :: ds, isUniSpace x = isUniSpace c := by
              intro x hx
              rcases List.mem_cons.1 hx with h | h
              · rw [h]
              · rw [hcls x h, hsame]
            intro c1 h1 c2 h2
            rw [hcls2 c1 h1, hcls2 c2 h2]
          · exact ih ch (by rw [hsc]; simp [h])
        · simp only [if_neg hsame] at hch
          rcases List.mem_cons.1 hch with h | h
          · subst h
            refine ⟨by simp, ?_⟩
            intro c1 h1 c2 h2
            simp only [List.mem_singleton] at h1 h2
            rw [h1, h2]
          · exact ih ch (by rw [hsc]; exact h)

theorem pyWords_noWs (s : PyStr) :
    ∀ word ∈ pyWords s, noWs word = true ∧ word ≠ [] := by
  intro word hw
  unfold pyWords at hw
  rw [List.mem_filter] at hw
  obtain ⟨hmem, hne⟩ := hw
  have huni := splitChunks_uniform s word hmem
  refine ⟨?_, huni.1⟩
  rw [Bool.not_eq_true'] at hne
  have hex : ∃ c ∈ word, ¬ isUniSpace c = true := by
    by_contra hall
    push_neg at hall
    have : stripEmpty word = true := by
      unfold stripEmpty
      rw [List.all_eq_true]
      exact fun x hx => hall x hx
    rw [this] at hne
    exact Bool.noConfusion hne
  obtain ⟨c, hcmem, hcns⟩ := hex
  unfold noWs
  rw [List.all_eq_true]
  intro x hx
  have hcl := huni.2 x hx c hcmem
  simp only [Bool.not_eq_true] at hcns
  simp [hcl, hcns]

theorem greedyGo_ok (w : PyStr → Nat) (mw : Int) :
    ∀ (words : List PyStr) (cur : PyStr),
      ((w cur : Int) ≤ mw ∨ noWs cur = true) →
      (∀ word ∈ words, noWs word = true) →
      ∀ line ∈ greedyGo w mw cur words,
        (w line : Int) ≤ mw ∨ noWs line = true := by
  intro words
  induction words with
  | nil =>
    intro cur hcur _ line hline
    rw [greedyGo] at hline
    by_cases hc : cur.isEmpty = true
    · rw [if_pos hc] at hline
      simp at hline
    · rw [if_neg hc] at hline
      simp only [List.mem_singleton] at hline
      subst hline
      exact hcur
  | cons word rest ih =>
    intro cur hcur hwords line hline
    rw [greedyGo] at hline
    by_cases hw' : ((w (if cur.isEmpty then word else cur ++ ' ' :: word) : Int) ≤ mw)
    · rw [if_pos hw'] at hline
      exact ih _ (Or.inl hw') (fun x hx => hwords x (by simp [hx])) line hline
    · rw [if_neg hw'] at hline
      by_cases hc : cur.isEmpty = true
      · rw [if_pos hc] at hline
        exact ih word (Or.inr (hwords word (by simp)))
          (fun x hx => hwords x (by simp [hx])) line hline
      · rw [if_neg hc] at hline
        rcases List.mem_cons.1 hline with h | h
        · subst h
          exact hcur
        · exact ih word (Or.inr (hwords word (by simp)))
            (fun x hx => hwords x (by simp [hx])) line h

theorem refineLine_ok (w : PyStr → Nat) (mw : Int) (line : PyStr) :
    ∀ l ∈ refineLine w mw line, (w l : Int) ≤ mw ∨ noWs l = true := by
  intro l hl
  unfold refineLine at hl
  by_cases h : (w line : Int) ≤ mw
  · rw [if_pos h] at hl
    simp only [List.mem_singleton] at hl
    subst hl
    exact Or.inl h
  · rw [if_neg h] at hl
    exact greedyGo_ok w mw (pyWords line) [] (Or.inr (by decide))
      (fun word hw' => (pyWords_noWs line word hw').1) l hl

theorem splitNl_ne_nil (s : PyStr) : splitNl s ≠ [] := by
  cases s with
  | nil => simp [splitNl]
  | cons c rest =>
    rw [splitNl]
    by_cases h : c = '\n'
    · simp [h]
    · rw [if_neg h]
      rcases hs : splitNl rest with _ | ⟨p, ps⟩ <;> simp

theorem splitNl_append (pre post : PyStr) (h : '\n' ∉ pre) :
    splitNl (pre ++ '\n' :: post) = pre :: splitNl post := by
  induction pre with
  | nil => simp [splitNl]
  | cons c t ih =>
    have hc : c ≠ '\n' := fun heq => h (by simp [heq])
    have ih2 := ih (fun hm => h (by simp [hm]))
    rw [List.cons_append, splitNl, if_neg hc, ih2]

theorem wrapPara_ne_nil (w : PyStr → Nat) (mw : Int) (p : PyStr) :
    wrapPara w mw p ≠ [] := by
  by_cases h : stripEmpty p = true
  · unfold wrapPara
    rw [if_pos h]
    simp
  · intro hnil
    have hpres := wrapPara_removeWs w mw p
    rw [hnil] at hpres
    have hnilp : removeWs p = [] := by
      simpa [cat, removeWs_nil] using hpres.symm
    exact h (removeWs_eq_nil.1 hnilp)

theorem wrapPara_word (w : PyStr → Nat) (mw : Int) (word : PyStr)
    (hs : stripEmpty word = false) (htw : textwrapWrap word = [word])
    (hpw : pyWords word = [word]) (hne : word ≠ []) :
    wrapPara w mw word = [word] := by
  unfold wrapPara
  rw [if_neg (by simp [hs]), htw]
  simp only [List.flatMap_cons, List.flatMap_nil, List.append_nil]
  unfold refineLine
  by_cases h : (w word : Int) ≤ mw
  · rw [if_pos h]
  · rw [if_neg h, hpw, greedyGo]
    simp only [List.isEmpty_nil, if_true]
    have hend : greedyGo w mw word [] = [word] := by
      rw [greedyGo, if_neg (by simp [List.isEmpty_iff, hne])]
    by_cases h2 : (w word : Int) ≤ mw
    · exact absurd h2 h
    · rw [if_neg h2]
      exact hend

/-- Claim C4 (amended): every display line produced by `_wrap_text` either
measures within the maximum pixel width or contains no whitespace at all —
it is a single unsplittable token (a word of the input, or a fragment of a
word longer than the 50-character coarse wrap) emitted on a line of its
own, which may overflow. -/
theorem claim_C4 (w : PyStr → Nat) (maxWidth : Int) (text : PyStr) :
    ∀ line ∈ wrapText w maxWidth text,
      (w line : Int) ≤ maxWidth ∨ noWs line = true := by
  intro line hline
  unfold wrapText at hline
  rw [List.mem_flatMap] at hline
  obtain ⟨p, _, hp⟩ := hline
  unfold wrapPara at hp
  by_cases h : stripEmpty p = true
  · rw [if_pos h] at hp
    simp only [List.mem_singleton] at hp
    subst hp
    exact Or.inr (by decide)
  · rw [if_neg h] at hp
    rw [List.mem_flatMap] at hp
    obtain ⟨l, _, hl⟩ := hp
    exact refineLine_ok w maxWidth l line hl

/-- Claim C4 as stated fails: a 60-character word is character-split by the
coarse 50-character pass, so the first emitted line is an overflowing
50-character fragment that is not a word of the input. -/
theorem claim_C4_counterexample :
    wrapText w10 100 text60 = [List.replicate 50 'a', List.replicate 10 'a'] ∧
    ¬ wrapClaimedOk w10 100 text60 := by
  constructor
  · decide
  · intro h
    exact absurd (h (List.replicate 50 'a') (by decide)) (by decide)

/-- Witness for claim C4 at a concrete input. -/
theorem claim_C4_witness :
    ((['h', 'i'] : PyStr) ∈ wrapText w10 100 (['h', 'i'])) ∧
    ((w10 (['h', 'i']) : Int) ≤ 100 ∨ noWs (['h', 'i']) = true) :=
  ⟨by decide, claim_C4 w10 100 (['h', 'i']) ['h', 'i'] (by decide)⟩

/-- Claim C8: the wrapper splits on explicit newlines into paragraphs —
`"A\n\nB"` yields exactly the display lines `"A"`, `""`, `"B"` in order;
splitting distributes over a first newline, preserving paragraph order;
and an empty paragraph becomes exactly one blank display line. -/
theorem claim_C8 (w : PyStr → Nat) (maxWidth : Int) :
    wrapText w maxWidth (['A', '\n', '\n', 'B']) = [['A'], [], ['B']] ∧
    (∀ pre post : PyStr, '\n' ∉ pre →
      wrapText w maxWidth (pre ++ '\n' :: post) =
        wrapPara w maxWidth pre ++ wrapText w maxWidth post) ∧
    wrapPara w maxWidth [] = [[]] := by
  refine ⟨?_, ?_, rfl⟩
  · show (splitNl (['A', '\n', '\n', 'B'])).flatMap (wrapPara w maxWidth) = _
    have hs : splitNl (['A', '\n', '\n', 'B']) = [['A'], [], ['B']] := by decide
    rw [hs]
    have hA : wrapPara w maxWidth ['A'] = [['A']] :=
      wrapPara_word w maxWidth ['A'] (by decide) (by decide) (by decide) (by decide)
    have hB : wrapPara w maxWidth ['B'] = [['B']] :=
      wrapPara_word w maxWidth ['B'] (by decide) (by decide) (by decide) (by decide)
    have hE : wrapPara w maxWidth [] = [[]] := rfl
    simp [List.flatMap_cons, hA, hB, hE]
  · intro pre post hpre
    unfold wrapText
    rw [splitNl_append pre post hpre, List.flatMap_cons]

/-- Witness for claim C8 at a concrete split point. -/
theorem claim_C8_witness :
    ('\n' ∉ (['x', 'y'] : PyStr)) ∧
    wrapText w10 100 ((['x', 'y'] : PyStr) ++ '\n' :: (['z'] : PyStr)) =
      wrapPara w10 100 (['x', 'y']) ++ wrapText w10 100 (['z']) :=
  ⟨by decide, (claim_C8 w10 100).2.1 ['x', 'y'] ['z'] (by decide)⟩

/-- Claim C9: for every non-empty paragraph, the wrapper's display lines
for that paragraph contain exactly the paragraph's non-whitespace
characters, in order — nothing dropped, duplicated or reordered. -/
theorem claim_C9 (w : PyStr → Nat) (maxWidth : Int) (p : PyStr) (_hne : p ≠ []) :
    removeWs (cat (wrapPara w maxWidth p)) = removeWs p :=
  wrapPara_removeWs w maxWidth p

/-- Witness for claim C9 on a concrete two-word paragraph. -/
theorem claim_C9_witness :
    (helloWorld ≠ []) ∧
    removeWs (cat (wrapPara w10 30 helloWorld)) = removeWs helloWorld :=
  ⟨by decide, claim_C9 w10 30 helloWorld (by decide)⟩

/-- Claim C10: the wrapper always returns at least one display line, the
empty string yields exactly one blank line, and any all-whitespace
paragraph (not only the empty one) becomes exactly one blank line. -/
theorem claim_C10 (w : PyStr → Nat) (maxWidth : Int) (text p : PyStr) :
    1 ≤ (wrapText w maxWidth text).length ∧
    wrapText w maxWidth [] = [[]] ∧
    (stripEmpty p = true → wrapPara w maxWidth p = [[]]) := by
  refine ⟨?_, rfl, ?_⟩
  · unfold wrapText
    rcases hs : splitNl text with _ | ⟨p0, ps⟩
    · exact absurd hs (splitNl_ne_nil text)
    · rw [List.flatMap_cons]
      rcases hq : wrapPara w maxWidth p0 with _ | ⟨l0, ls⟩
      · exact absurd hq (wrapPara_ne_nil w maxWidth p0)
      · simp
  · intro h
    unfold wrapPara
    rw [if_pos h]

/-- Witness for claim C10 on a whitespace-only paragraph. -/
theorem claim_C10_witness :
    (stripEmpty ([' ', '\t']) = true) ∧ wrapPara w10 40 ([' ', '\t']) = [[]] :=
  ⟨by decide, (claim_C10 w10 40 helloWorld ([' ', '\t'])).2.2 (by decide)⟩

/-- Claim C5: `_calculate_position` realises exactly the claimed anchor
rule — center/top/bottom/left/right formulas, unrecognised keywords
behaving as center, each coordinate floored at 0 — and in particular a
400×300 image with a 100×20 block, margin 10 and position "bottom" gives
the origin (150, 270). -/
theorem claim_C5 :
    (∀ (imgWidth imgHeight blockWidth blockHeight margin : Int) (position : String),
      calculate_position imgWidth imgHeight blockWidth blockHeight position margin =
        positionClaimed imgWidth imgHeight blockWidth blockHeight position margin) ∧
    calculate_position 400 300 100 20 ("bottom") 10 = (150, 270) := by
  constructor
  · intro W H bw bh M pos
    unfold calculate_position positionClaimed
    by_cases h1 : pos = "center"
    · simp [h1]
    by_cases h2 : pos = "top"
    · simp [h1, h2]
    by_cases h3 : pos = "bottom"
    · simp [h1, h2, h3]
    by_cases h4 : pos = "left"
    · simp [h1, h2, h3, h4]
    by_cases h5 : pos = "right"
    · simp [h1, h2, h3, h4, h5]
    · simp [h1, h2, h3, h4, h5]
  · decide

/-- The claim of C7 fails on the code: with an existing but unloadable
arial candidate and a loadable DejaVu startup font, `_get_font` returns
the built-in default, not the first font that loads. -/
theorem claim_C7_counterexample :
    get_font envFontBad 24 ("arial") = Font.builtin ∧
    getFontClaimed envFontBad 24 ("arial") = Font.truetype dejavuPath 24 ∧
    get_font envFontBad 24 ("arial") ≠ getFontClaimed envFontBad 24 ("arial") := by
  refine ⟨by decide, by decide, by decide⟩

/-- Claim C7 (amended): the resolver returns the FIRST style-specific
candidate path that exists, loaded at the requested size if that load
succeeds; if that single load fails it returns the built-in default font
directly (the startup list is not consulted); only when no style
candidate exists does it return the first startup-list font that loads,
and otherwise the built-in fixed-size default (the requested size not
honoured).  It never raises: any exception inside the body yields the
built-in default. -/
theorem claim_C7 (env : Env) (size : Int) (style : String) :
    get_font env size style = getFontAmended env size style ∧
    (∀ e, getFontBody env size style = .error e →
      get_font env size style = .builtin) := by
  constructor
  · unfold get_font getFontBody getFontAmended
    rcases hf : (styleCandidates style).find? env.pathExists with _ | path
    · simp only [hf]
      rcases hd : (get_default_fonts env).find? (fun p => env.loadOk p size)
        with _ | path2
      · simp [hd]
      · simp [hd]
    · simp only [hf]
      by_cases hl : env.loadOk path size
      · simp [hl]
      · simp [hl]
  · intro e he
    unfold get_font
    rw [he]

/-- Witness for claim C7: a concrete environment in which the body raises
and the resolver therefore returns the built-in default. -/
theorem claim_C7_witness :
    getFontBody envFontBad 24 ("arial") = .error ⟨"truetype failed"⟩ ∧
    get_font envFontBad 24 ("arial") = .builtin :=
  ⟨rfl, (claim_C7 envFontBad 24 ("arial")).2 ⟨"truetype failed"⟩ rfl⟩

theorem set_work_caller (σ : Store) (i : Image) :
    (σ.set .work i).caller = σ.caller := rfl

theorem addTextBackgroundS_caller {env : Env} {σ σ' : Store} {x y w h : Int}
    {color : RGBc} {opacity : ℚ} {padding : Int}
    (hok : addTextBackgroundS env .work σ x y w h color opacity padding = .ok σ') :
    σ'.caller = σ.caller := by
  unfold addTextBackgroundS at hok
  cases hadd : add_text_background env (σ.get .work) x y w h color opacity padding with
  | error e =>
    simp only [hadd] at hok
    exact Except.noConfusion hok
  | ok i =>
    simp only [hadd, Except.ok.injEq] at hok
    rw [← hok]
    exact set_work_caller σ i

theorem drawTextS_caller {env : Env} {σ σ' : Store} {lines : List PyStr}
    {x y : Int} {font : Font} {color : RGBc} {lineSpacing : Int}
    {alignment : String}
    (hok : drawTextS env .work σ lines x y font color lineSpacing alignment = .ok σ') :
    σ'.caller = σ.caller := by
  unfold drawTextS at hok
  cases hdr : draw_text env (σ.get .work) lines x y font color lineSpacing alignment with
  | error e =>
    simp only [hdr] at hok
    exact Except.noConfusion hok
  | ok i =>
    simp only [hdr, Except.ok.injEq] at hok
    rw [← hok]
    exact set_work_caller σ i

theorem ifBg_caller {P : Prop} [Decidable P] {env : Env} {σ σ' : Store}
    {x y w h : Int} {color : RGBc} {opacity : ℚ} {padding : Int}
    (hok : (if P then addTextBackgroundS env .work σ x y w h color opacity padding
      else .ok σ) = .ok σ') :
    σ'.caller = σ.caller := by
  by_cases hp : P
  · rw [if_pos hp] at hok
    exact addTextBackgroundS_caller hok
  · rw [if_neg hp] at hok
    simp only [Except.ok.injEq] at hok
    rw [← hok]

theorem overlayRun_caller (env : Env) (image : Image) (text : PyStr)
    (cfg : StyleConfig) : (overlayRun env image text cfg).1.caller = image := by
  unfold overlayRun
  dsimp only
  split
  · rfl
  · next σ1 heq =>
    split
    · next e2 heq2 =>
      rw [ifBg_caller heq]
    · next σ2 heq2 =>
      rw [drawTextS_caller heq2, ifBg_caller heq]

theorem add_text_background_dims {env : Env} {img : Image} {x y w h : Int}
    {color : RGBc} {opacity : ℚ} {padding : Int} {res : Image}
    (hok : add_text_background env img x y w h color opacity padding = .ok res) :
    res.width = img.width ∧ res.height = img.height ∧ res.mode = img.mode := by
  unfold add_text_background at hok
  cases hik : env.inkCheck color.r color.g color.b (pyInt (255 * opacity)) with
  | some e =>
    simp only [hik] at hok
    exact Except.noConfusion hok
  | none =>
    simp only [hik, Except.ok.injEq] at hok
    rw [← hok]
    exact ⟨rfl, rfl, rfl⟩

theorem drawLine_dims {env : Env} {font : Font} {line : PyStr} {lx ly : Int}
    {color : RGBc} {img res : Image}
    (hok : drawLine env font line lx ly color img = .ok res) :
    res.width = img.width ∧ res.height = img.height ∧ res.mode = img.mode := by
  unfold drawLine at hok
  cases hik : env.inkCheck color.r color.g color.b 255 with
  | some e =>
    simp only [hik] at hok
    exact Except.noConfusion hok
  | none =>
    simp only [hik, Except.ok.injEq] at hok
    rw [← hok]
    exact ⟨rfl, rfl, rfl⟩

theorem drawTextGo_dims {env : Env} {font : Font} {allLines : List PyStr}
    {x : Int} {color : RGBc} {lineSpacing : Int} {alignment : String}
    {lineH : Int} :
    ∀ (lines : List PyStr) (curY : Int) (img res : Image),
      drawTextGo env font allLines x color lineSpacing alignment lineH
        lines curY img = .ok res →
      res.width = img.width ∧ res.height = img.height ∧ res.mode = img.mode := by
  intro lines
  induction lines with
  | nil =>
    intro curY img res hok
    unfold drawTextGo at hok
    simp only [Except.ok.injEq] at hok
    rw [← hok]
    exact ⟨rfl, rfl, rfl⟩
  | cons line rest ih =>
    intro curY img res hok
    unfold drawTextGo at hok
    cases hdl : drawLine env font line
        (if alignment = "center" then
          x + ((calculate_text_size env font allLines lineSpacing).1 -
            (get_text_width env font line : Int)).fdiv 2
        else if alignment = "right" then
          x + ((calculate_text_size env font allLines lineSpacing).1 -
            (get_text_width env font line : Int))
        else x) curY color img with
    | error e =>
      simp only [hdl] at hok
      exact Except.noConfusion hok
    | ok img2 =>
      simp only [hdl] at hok
      have h1 := drawLine_dims hdl
      have h2 := ih (curY + lineH + lineSpacing) img2 res hok
      exact ⟨h2.1.trans h1.1, h2.2.1.trans h1.2.1, h2.2.2.trans h1.2.2⟩

theorem draw_text_dims {env : Env} {img : Image} {lines : List PyStr}
    {x y : Int} {font : Font} {color : RGBc} {lineSpacing : Int}
    {alignment : String} {res : Image}
    (hok : draw_text env img lines x y font color lineSpacing alignment = .ok res) :
    res.width = img.width ∧ res.height = img.height ∧ res.mode = img.mode := by
  unfold draw_text at hok
  exact drawTextGo_dims lines y img res hok

theorem addTextBackgroundS_work {env : Env} {σ σ' : Store} {x y w h : Int}
    {color : RGBc} {opacity : ℚ} {padding : Int}
    (hok : addTextBackgroundS env .work σ x y w h color opacity padding = .ok σ') :
    add_text_background env σ.work x y w h color opacity padding = .ok σ'.work := by
  unfold addTextBackgroundS at hok
  cases hadd : add_text_background env (σ.get .work) x y w h color opacity padding with
  | error e =>
    simp only [hadd] at hok
    exact Except.noConfusion hok
  | ok i =>
    simp only [hadd, Except.ok.injEq] at hok
    rw [← hok]
    exact hadd

theorem drawTextS_work {env : Env} {σ σ' : Store} {lines : List PyStr}
    {x y : Int} {font : Font} {color : RGBc} {lineSpacing : Int}
    {alignment : String}
    (hok : drawTextS env .work σ lines x y font color lineSpacing alignment = .ok σ') :
    draw_text env σ.work lines x y font color lineSpacing alignment = .ok σ'.work := by
  unfold drawTextS at hok
  cases hdr : draw_text env (σ.get .work) lines x y font color lineSpacing alignment with
  | error e =>
    simp only [hdr] at hok
    exact Except.noConfusion hok
  | ok i =>
    simp only [hdr, Except.ok.injEq] at hok
    rw [← hok]
    exact hdr

theorem ifBg_work {P : Prop} [Decidable P] {env : Env} {σ σ' : Store}
    {x y w h : Int} {color : RGBc} {opacity : ℚ} {padding : Int}
    (hok : (if P then addTextBackgroundS env .work σ x y w h color opacity padding
      else .ok σ) = .ok σ') :
    σ'.work.width = σ.work.width ∧ σ'.work.height = σ.work.height ∧
      σ'.work.mode = σ.work.mode := by
  by_cases hp : P
  · rw [if_pos hp] at hok
    exact add_text_background_dims (addTextBackgroundS_work hok)
  · rw [if_neg hp] at hok
    simp only [Except.ok.injEq] at hok
    rw [← hok]
    exact ⟨rfl, rfl, rfl⟩

theorem overlayRun_ok_dims {env : Env} {image : Image} {text : PyStr}
    {cfg : StyleConfig} {r : Image}
    (hok : (overlayRun env image text cfg).2 = .ok r) :
    r.width = image.width ∧ r.height = image.height ∧ r.mode = image.mode := by
  unfold overlayRun at hok
  dsimp only at hok
  split at hok
  · exact Except.noConfusion hok
  · next σ1 heq =>
    split at hok
    · exact Except.noConfusion hok
    · next σ2 heq2 =>
      simp only [Except.ok.injEq] at hok
      have h1 := ifBg_work heq
      have h2 := draw_text_dims (drawTextS_work heq2)
      rw [← hok]
      show σ2.work.width = image.width ∧ σ2.work.height = image.height ∧
        σ2.work.mode = image.mode
      have hw : (⟨image, Image.copy image⟩ : Store).work = image := rfl
      rw [hw] at h1
      exact ⟨h2.1.trans h1.1, h2.2.1.trans h1.2.1, h2.2.2.trans h1.2.2⟩

/-- Claim C1: whenever any exception escapes the overlay pipeline body,
the top-level boundary of `add_text_overlay` catches it and the caller
receives the original, unmodified input image (the function itself is
total, so no exception ever propagates). -/
theorem claim_C1 (env : Env) (image : Image) (text : PyStr) (cfg : StyleConfig) :
    ∀ e, (overlayRun env image text cfg).2 = .error e →
      add_text_overlay env image text cfg = image := by
  intro e he
  unfold add_text_overlay
  dsimp only
  rw [he]
  exact overlayRun_caller env image text cfg

theorem overlayRun_strict_err :
    (overlayRun envStrict img43 (['h', 'i']) cfgOp5).2 = .error ⟨"bad color"⟩ := by
  have hop : cfgOp5.background_opacity = 5 := rfl
  have haInt : pyInt (255 * cfgOp5.background_opacity) = 1275 := by
    rw [hop]
    have h : ((255 : ℚ) * 5) = 1275 := by norm_num
    rw [pyInt, h]
    rfl
  have hpos : cfgOp5.background_opacity > 0 := by
    rw [hop]
    norm_num
  have hik : inkCheckRange 0 0 0 1275 = some ⟨"bad color"⟩ := by decide
  unfold overlayRun
  dsimp only
  rw [if_pos hpos]
  unfold addTextBackgroundS add_text_background
  rw [haInt]
  have henv : envStrict.inkCheck = inkCheckRange := rfl
  have hbc : cfgOp5.background_color = ⟨0, 0, 0⟩ := rfl
  rw [henv, hbc]
  dsimp only
  rw [hik]

/-- Witness for claim C1: with a range-checking drawing layer and the
malformed opacity 5.0, the backing-plate fill alpha `int(255*5.0) = 1275`
is rejected, the body raises, and the call returns the input image. -/
theorem claim_C1_witness :
    (overlayRun envStrict img43 (['h', 'i']) cfgOp5).2 = .error ⟨"bad color"⟩ ∧
    add_text_overlay envStrict img43 (['h', 'i']) cfgOp5 = img43 :=
  ⟨overlayRun_strict_err,
   claim_C1 envStrict img43 (['h', 'i']) cfgOp5 ⟨"bad color"⟩ overlayRun_strict_err⟩

/-- Claim C2: the image returned by `add_text_overlay` has exactly the
width and height of the input image, on the normal path (a drawn-on copy)
and on the error path (the input itself) alike. -/
theorem claim_C2 (env : Env) (image : Image) (text : PyStr) (cfg : StyleConfig) :
    (add_text_overlay env image text cfg).width = image.width ∧
    (add_text_overlay env image text cfg).height = image.height := by
  unfold add_text_overlay
  dsimp only
  cases hres : (overlayRun env image text cfg).2 with
  | error e =>
    rw [overlayRun_caller env image text cfg]
    exact ⟨rfl, rfl⟩
  | ok r =>
    have h := overlayRun_ok_dims hres
    exact ⟨h.1, h.2.1⟩

/-- Claim C3: `add_text_overlay` never mutates the caller's image object:
the pipeline copies the input into `result_image` and every in-place
drawing call (`_add_text_background`, `_draw_text`) targets only that
copy, so the caller's object holds its original pixel data when the call
returns, on the success and failure paths alike. -/
theorem claim_C3 (env : Env) (image : Image) (text : PyStr) (cfg : StyleConfig) :
    (overlayRun env image text cfg).1.caller = image ∧
    (∀ e, (overlayRun env image text cfg).2 = .error e →
      add_text_overlay env image text cfg = (overlayRun env image text cfg).1.caller) := by
  refine ⟨overlayRun_caller env image text cfg, ?_⟩
  intro e he
  unfold add_text_overlay
  dsimp only
  rw [he]

/-- Witness for claim C3 at a concrete raising run. -/
theorem claim_C3_witness :
    (overlayRun envStrict img43 (['h', 'i']) cfgOp5).1.caller = img43 ∧
    add_text_overlay envStrict img43 (['h', 'i']) cfgOp5 =
      (overlayRun envStrict img43 (['h', 'i']) cfgOp5).1.caller :=
  ⟨(claim_C3 envStrict img43 (['h', 'i']) cfgOp5).1,
   (claim_C3 envStrict img43 (['h', 'i']) cfgOp5).2 ⟨"bad color"⟩ overlayRun_strict_err⟩

theorem mk_rat_eq_div (n : Int) (d : Nat) (h1 : d ≠ 0)
    (h2 : n.natAbs.Coprime d) : (⟨n, d, h1, h2⟩ : ℚ) = (n : ℚ) / (d : ℚ) := by
  rw [Rat.mk'_eq_divInt, Rat.divInt_eq_div]
  norm_cast

theorem convertRGBA_px_opaque {img : Image} {x y : Nat}
    (h : (img.px x y).a = 255) : (img.convertRGBA).px x y = img.px x y := by
  rcases hm : img.mode with _ | _
  · simp only [Image.convertRGBA, hm]
    rw [← h]
  · simp only [Image.convertRGBA, hm]

theorem flatten_px (X : Image) (m : Mode) (x y : Nat) :
    ((X.convertRGB).convertTo m).px x y = { X.px x y with a := 255 } := by
  cases m <;> rfl

theorem bg_opaque_px (env : Env) (img : Image) (x y w h : Int) (color : RGBc)
    (opacity : ℚ) (padding : Int) (px py : Nat)
    (hop : ∀ qx qy, (img.px qx qy).a = 255)
    (hink : env.inkCheck color.r color.g color.b (pyInt (255 * opacity)) = none) :
    add_text_background env img x y w h color opacity padding =
      .ok (bgResult env img x y w h color opacity padding) ∧
    (bgResult env img x y w h color opacity padding).width = img.width ∧
    (bgResult env img x y w h color opacity padding).height = img.height ∧
    (bgResult env img x y w h color opacity padding).mode = img.mode ∧
    (inRect (bgRect img.width img.height x y w h padding) px py →
      (bgResult env img x y w h color opacity padding).px px py =
        plateBlend (pyInt (255 * opacity)) color (img.px px py)) ∧
    (¬ inRect (bgRect img.width img.height x y w h padding) px py →
      (bgResult env img x y w h color opacity padding).px px py = img.px px py) := by
  unfold bgResult add_text_background
  simp only [hink]
  refine ⟨trivial, rfl, rfl, rfl, ?_, ?_⟩
  · intro hin
    show ((((alphaComposite img.convertRGBA _).convertRGB).convertTo img.mode).px px py) = _
    rw [flatten_px]
    dsimp only [alphaComposite]
    rw [if_pos hin, convertRGBA_px_opaque (hop px py)]
    rcases hp : img.px px py with ⟨pr, pg, pb, pa⟩
    have hpa : pa = 255 := by
      have := hop px py
      rw [hp] at this
      exact this
    subst hpa
    dsimp only
    have h255 : (255 : ℚ) ≠ 0 := by norm_num
    have hoa : ((pyInt (255 * opacity) : Int) : ℚ) +
        255 * (255 - ((pyInt (255 * opacity) : Int) : ℚ)) / 255 = 255 := by
      rw [mul_div_cancel_left₀ _ h255]
      ring
    rw [hoa, if_neg (by norm_num : ¬ (255 : ℚ) = 0)]
    unfold plateBlend
    dsimp only
    rw [Pixel.mk.injEq]
    refine ⟨?_, ?_, ?_, rfl⟩
    all_goals
      field_simp
      ring
  · intro hout
    show ((((alphaComposite img.convertRGBA _).convertRGB).convertTo img.mode).px px py) = _
    rw [flatten_px]
    dsimp only [alphaComposite]
    rw [if_neg hout, convertRGBA_px_opaque (hop px py)]
    rcases hp : img.px px py with ⟨pr, pg, pb, pa⟩
    have hpa : pa = 255 := by
      have := hop px py
      rw [hp] at this
      exact this
    subst hpa
    dsimp only
    have h255 : (255 : ℚ) ≠ 0 := by norm_num
    have hoa : (0 : ℚ) + 255 * (255 - 0) / 255 = 255 := by norm_num
    rw [hoa, if_neg (by norm_num : ¬ (255 : ℚ) = 0)]
    rw [Pixel.mk.injEq]
    refine ⟨?_, ?_, ?_, rfl⟩
    all_goals
      field_simp

/-- Claim C6 (amended): when the drawing layer accepts the fill, the
compositor succeeds and, for a fully opaque source image, every pixel
inside the rectangle (text block bounds inflated by the given padding —
half the margin at the call site — and clamped to the image bounds,
corners inclusive) becomes
`plate_color × α + existing_pixel × (1 − α)` per colour channel with the
quantised alpha `α = int(255·opacity)/255`, flattened to full opacity,
while every pixel outside the rectangle is unchanged; the blend is
performed in 4-channel RGBA space before flattening, and the image keeps
its size and mode.  (For a source that itself carries partial
transparency, the flattening step destroys the alpha channel — see the
counterexample.) -/
theorem claim_C6 (env : Env) (img : Image) (x y w h : Int) (color : RGBc)
    (opacity : ℚ) (padding : Int) (px py : Nat)
    (hop : ∀ qx qy, (img.px qx qy).a = 255)
    (hink : env.inkCheck color.r color.g color.b (pyInt (255 * opacity)) = none) :
    add_text_background env img x y w h color opacity padding =
      .ok (bgResult env img x y w h color opacity padding) ∧
    (bgResult env img x y w h color opacity padding).width = img.width ∧
    (bgResult env img x y w h color opacity padding).height = img.height ∧
    (bgResult env img x y w h color opacity padding).mode = img.mode ∧
    (inRect (bgRect img.width img.height x y w h padding) px py →
      (bgResult env img x y w h color opacity padding).px px py =
        plateBlend (pyInt (255 * opacity)) color (img.px px py)) ∧
    (¬ inRect (bgRect img.width img.height x y w h padding) px py →
      (bgResult env img x y w h color opacity padding).px px py = img.px px py) :=
  bg_opaque_px env img x y w h color opacity padding px py hop hink

/-- Claim C6 as stated fails on the code: (a) with a partially transparent
source, a pixel outside the rectangle is altered — flattening to RGB and
pasting back forces its alpha to 255; (b) even for an opaque source the
blend uses the quantised alpha `int(255*0.7)/255 = 178/255`, not the
exact 0.7. -/
theorem claim_C6_counterexample :
    ¬ backgroundClaimedOk envAccept imgTrans 0 0 0 0 ⟨0, 0, 0⟩ qHalf 0 ∧
    ¬ backgroundClaimedOk envAccept imgWhite 0 0 0 0 ⟨0, 0, 0⟩ q710 0 := by
  constructor
  · intro hcl
    have h2 := hcl _ rfl 1 0 (by decide) (by decide)
    have h3 := h2.2 (by decide)
    exact absurd (congrArg Pixel.a h3) (by decide)
  · intro hcl
    have hspec := bg_opaque_px envAccept imgWhite 0 0 0 0 ⟨0, 0, 0⟩ q710 0 0 0
      (fun _ _ => rfl) rfl
    have h2 := hcl _ hspec.1 0 0 (by decide) (by decide)
    have h3 := (h2.1 (by decide)).1
    rw [hspec.2.2.2.2.1 (by decide)] at h3
    have hA : pyInt (255 * q710) = 178 := by
      have hq : (255 : ℚ) * q710 = (⟨357, 2, by decide, by decide⟩ : ℚ) := by
        unfold q710
        rw [mk_rat_eq_div, mk_rat_eq_div]
        norm_num
      rw [hq]
      rfl
    rw [hA] at h3
    unfold plateBlend at h3
    dsimp only at h3
    unfold q710 at h3
    rw [mk_rat_eq_div] at h3
    have hwpx : imgWhite.px 0 0 = (⟨255, 255, 255, 255⟩ : Pixel) := rfl
    rw [hwpx] at h3
    norm_num at h3

/-- Witness for claim C6: concrete blend on an opaque image, one pixel
inside the plate rectangle and one outside. -/
theorem claim_C6_witness :
    (bgResult envAccept img43 0 0 0 0 ⟨9, 8, 7⟩ qHalf 0).px 0 0 =
      plateBlend (pyInt (255 * qHalf)) ⟨9, 8, 7⟩ (img43.px 0 0) ∧
    (bgResult envAccept img43 0 0 0 0 ⟨9, 8, 7⟩ qHalf 0).px 1 0 = img43.px 1 0 :=
  ⟨(claim_C6 envAccept img43 0 0 0 0 ⟨9, 8, 7⟩ qHalf 0 0 0
      (fun _ _ => rfl) rfl).2.2.2.2.1 (by decide),
   (claim_C6 envAccept img43 0 0 0 0 ⟨9, 8, 7⟩ qHalf 0 1 0
      (fun _ _ => rfl) rfl).2.2.2.2.2 (by decide)⟩

end VerseCanvas
